import Mathlib

/-!
Verification of `src/engine/detail_rendering.h` from the `godot_voxel` repository
(namespace `zylann::voxel`): the detail-normalmap generation interface.

Byte buffers (`Span<uint8_t>`, `std::vector<uint8_t>`) are embedded as `List Nat`
(each element one byte); `Vector2i` keeps its `int` fields as `Int`.  Functions whose
bodies are present in the header (`copy_2d_region_from_packed_to_atlased`,
`get_square_grid_size_from_item_count`, `DetailTextureData::clear`) are translated
from the source; functions that are only declared there are modelled from the spec,
as marked in their doc comments.
-/

namespace VoxelDetail

/-- `Vector2i`: 2-D integer vector with `int` fields, as used by the copy routine. -/
structure Vector2i where
  x : Int
  y : Int
deriving DecidableEq, Repr

/-- Write value `v` at index `i` of a byte list; out-of-range writes leave the list
unchanged (the C++ code never performs them under its preconditions). -/
def setAt : List Nat → Nat → Nat → List Nat
  | [], _, _ => []
  | _ :: xs, 0, v => v :: xs
  | x :: xs, n + 1, v => x :: setAt xs n v

/-- `memcpy(dst + dstOff, src + srcOff, n)` on byte lists: copies bytes
`src[srcOff..srcOff+n)` to `dst[dstOff..dstOff+n)`. -/
def memcpyBytes (dst : List Nat) (dstOff : Nat) (src : List Nat) (srcOff : Nat) :
    Nat → List Nat
  | 0 => dst
  | n + 1 => setAt (memcpyBytes dst dstOff src srcOff n) (dstOff + n) (src.getD (srcOff + n) 0)

/-- The row loop of `copy_2d_region_from_packed_to_atlased`: for each row
`src_y < n`, copy `srcRowSize` bytes from `src + src_y * srcRowSize` to
`dst + dstBegin + src_y * dstRowSize` (rows processed in increasing order, like the
pointer-walking loop of the source). -/
def copyRows (dst src : List Nat) (dstBegin srcRowSize dstRowSize : Nat) :
    Nat → List Nat
  | 0 => dst
  | n + 1 =>
    memcpyBytes (copyRows dst src dstBegin srcRowSize dstRowSize n)
      (dstBegin + n * dstRowSize) src (n * srcRowSize) srcRowSize

/-- `copy_2d_region_from_packed_to_atlased`: copies data from a fully packed array
into a sub-region of a 2-D array.  Translated from the source:
`dst_begin = (dst_pos.x + dst_pos.y * dst_size.x) * item_size_in_bytes`,
`src_row_size = src_size.x * item_size_in_bytes`,
`dst_row_size = dst_size.x * item_size_in_bytes`, then a loop of `src_size.y`
row-wise `memcpy`s.  The C++ arithmetic is converted to unsigned at the same
places the source does (`unsigned int` locals and the loop cast). -/
def copy_2d_region_from_packed_to_atlased (dst : List Nat) (dst_size : Vector2i)
    (src : List Nat) (src_size : Vector2i) (dst_pos : Vector2i)
    (item_size_in_bytes : Nat) : List Nat :=
  let dst_begin : Nat := ((dst_pos.x + dst_pos.y * dst_size.x) * item_size_in_bytes).toNat
  let src_row_size : Nat := src_size.x.toNat * item_size_in_bytes
  let dst_row_size : Nat := dst_size.x.toNat * item_size_in_bytes
  copyRows dst src dst_begin src_row_size dst_row_size src_size.y.toNat

theorem length_setAt (l : List Nat) (i v : Nat) : (setAt l i v).length = l.length := by
  induction l generalizing i with
  | nil => rfl
  | cons x xs ih =>
    cases i with
    | zero => rfl
    | succ n => simp [setAt, ih]

theorem getD_setAt_self (l : List Nat) (i v : Nat) (h : i < l.length) :
    (setAt l i v).getD i 0 = v := by
  induction l generalizing i with
  | nil => simp at h
  | cons x xs ih =>
    cases i with
    | zero => rfl
    | succ n =>
      simp only [setAt, List.getD_cons_succ]
      exact ih n (by simpa using h)

theorem getD_setAt_ne (l : List Nat) (i v j : Nat) (h : i ≠ j) :
    (setAt l i v).getD j 0 = l.getD j 0 := by
  induction l generalizing i j with
  | nil => rfl
  | cons x xs ih =>
    cases i with
    | zero =>
      cases j with
      | zero => exact absurd rfl h
      | succ m => rfl
    | succ n =>
      cases j with
      | zero => rfl
      | succ m =>
        simp only [setAt, List.getD_cons_succ]
        exact ih n m (by omega)

theorem length_memcpyBytes (dst : List Nat) (dstOff : Nat) (src : List Nat)
    (srcOff n : Nat) : (memcpyBytes dst dstOff src srcOff n).length = dst.length := by
  induction n with
  | zero => rfl
  | succ k ih => simp [memcpyBytes, length_setAt, ih]

theorem getD_memcpyBytes_out (dst : List Nat) (dstOff : Nat) (src : List Nat)
    (srcOff n i : Nat) (h : i < dstOff ∨ dstOff + n ≤ i) :
    (memcpyBytes dst dstOff src srcOff n).getD i 0 = dst.getD i 0 := by
  induction n with
  | zero => rfl
  | succ k ih =>
    simp only [memcpyBytes]
    rw [getD_setAt_ne _ _ _ _ (by omega)]
    exact ih (by omega)

theorem getD_memcpyBytes_in (dst : List Nat) (dstOff : Nat) (src : List Nat)
    (srcOff n i : Nat) (h1 : dstOff ≤ i) (h2 : i < dstOff + n) (h3 : i < dst.length) :
    (memcpyBytes dst dstOff src srcOff n).getD i 0 = src.getD (srcOff + (i - dstOff)) 0 := by
  induction n with
  | zero => omega
  | succ k ih =>
    simp only [memcpyBytes]
    by_cases hk : i = dstOff + k
    · subst hk
      rw [getD_setAt_self]
      · congr 1
        omega
      · rw [length_memcpyBytes]
        exact h3
    · rw [getD_setAt_ne _ _ _ _ (by omega)]
      exact ih (by omega)

theorem length_copyRows (dst src : List Nat) (dstBegin srcRowSize dstRowSize n : Nat) :
    (copyRows dst src dstBegin srcRowSize dstRowSize n).length = dst.length := by
  induction n with
  | zero => rfl
  | succ k ih => simp [copyRows, length_memcpyBytes, ih]

theorem getD_copyRows_out (dst src : List Nat) (dstBegin srcRowSize dstRowSize n i : Nat)
    (h : ∀ y, y < n → i < dstBegin + y * dstRowSize ∨ dstBegin + y * dstRowSize + srcRowSize ≤ i) :
    (copyRows dst src dstBegin srcRowSize dstRowSize n).getD i 0 = dst.getD i 0 := by
  induction n with
  | zero => rfl
  | succ k ih =>
    simp only [copyRows]
    rw [getD_memcpyBytes_out _ _ _ _ _ _ (h k (by omega))]
    exact ih (fun y hy => h y (by omega))

theorem getD_copyRows_in (dst src : List Nat) (dstBegin srcRowSize dstRowSize n : Nat)
    (hrow : srcRowSize ≤ dstRowSize) (y j : Nat) (hy : y < n) (hj : j < srcRowSize)
    (hlen : dstBegin + y * dstRowSize + j < dst.length) :
    (copyRows dst src dstBegin srcRowSize dstRowSize n).getD (dstBegin + y * dstRowSize + j) 0 =
      src.getD (y * srcRowSize + j) 0 := by
  induction n with
  | zero => omega
  | succ k ih =>
    simp only [copyRows]
    by_cases hyk : y = k
    · subst hyk
      rw [getD_memcpyBytes_in]
      · congr 1
        omega
      · omega
      · omega
      · rw [length_copyRows]
        exact hlen
    · have hylt : y < k := by omega
      have hsep : dstBegin + y * dstRowSize + j < dstBegin + k * dstRowSize := by
        have h1 : y * dstRowSize + dstRowSize ≤ k * dstRowSize := by
          have : (y + 1) * dstRowSize ≤ k * dstRowSize :=
            Nat.mul_le_mul_right _ (by omega)
          simpa [Nat.add_mul] using this
        omega
      rw [getD_memcpyBytes_out _ _ _ _ _ _ (Or.inl hsep)]
      exact ih hylt

theorem copy_2d_cast_eq (dst src : List Nat) (dsx dsy sx sy dpx dpy isb : Nat) :
    copy_2d_region_from_packed_to_atlased dst ⟨(dsx : Int), (dsy : Int)⟩ src
        ⟨(sx : Int), (sy : Int)⟩ ⟨(dpx : Int), (dpy : Int)⟩ isb =
      copyRows dst src ((dpx + dpy * dsx) * isb) (sx * isb) (dsx * isb) sy := by
  unfold copy_2d_region_from_packed_to_atlased
  have h1 : (((dpx : Int) + (dpy : Int) * (dsx : Int)) * (isb : Int)).toNat =
      (dpx + dpy * dsx) * isb := by
    have : ((dpx : Int) + (dpy : Int) * (dsx : Int)) * (isb : Int) =
        (((dpx + dpy * dsx) * isb : Nat) : Int) := by push_cast; ring
    rw [this, Int.toNat_natCast]
  simp only [h1, Int.toNat_natCast]

/-- Claim C1: under the preconditions of `copy_2d_region_from_packed_to_atlased`
(non-negative sizes, destination region inside destination bounds, buffer sizes
matching declared dimensions times `item_size_in_bytes`, buffers disjoint — disjoint
by construction here since `src` and `dst` are separate lists), every source byte is
copied to the correct destination offset: for every pixel `(x, y)` of the source
block and byte `b < item_size_in_bytes`, the byte at source index
`(y * src_size.x + x) * item_size_in_bytes + b` ends up at destination index
`((dst_pos.y + y) * dst_size.x + dst_pos.x + x) * item_size_in_bytes + b`. -/
theorem copy_2d_copies_every_source_byte
    (dst src : List Nat) (dsx dsy sx sy dpx dpy isb : Nat)
    (hx : dpx + sx ≤ dsx) (hy : dpy + sy ≤ dsy)
    (hsrc : src.length = sx * sy * isb) (hdst : dst.length = dsx * dsy * isb)
    (x y b : Nat) (hxlt : x < sx) (hylt : y < sy) (hb : b < isb) :
    (copy_2d_region_from_packed_to_atlased dst ⟨(dsx : Int), (dsy : Int)⟩ src
          ⟨(sx : Int), (sy : Int)⟩ ⟨(dpx : Int), (dpy : Int)⟩ isb).getD
        (((dpy + y) * dsx + dpx + x) * isb + b) 0 =
      src.getD ((y * sx + x) * isb + b) 0 := by
  rw [copy_2d_cast_eq]
  have hidx : ((dpy + y) * dsx + dpx + x) * isb + b =
      (dpx + dpy * dsx) * isb + y * (dsx * isb) + (x * isb + b) := by ring
  have hsidx : (y * sx + x) * isb + b = y * (sx * isb) + (x * isb + b) := by ring
  rw [hidx, hsidx]
  apply getD_copyRows_in
  · exact Nat.mul_le_mul_right _ (by omega)
  · exact hylt
  · calc x * isb + b < x * isb + isb := by omega
    _ = (x + 1) * isb := by ring
    _ ≤ sx * isb := Nat.mul_le_mul_right _ (by omega)
  · rw [hdst, ← hidx]
    have hA : (dpy + y) * dsx + dpx + x + 1 ≤ dsx * dsy := by
      have h1 : (dpy + y + 1) * dsx ≤ dsy * dsx := Nat.mul_le_mul_right _ (by omega)
      have h2 : (dpy + y + 1) * dsx = (dpy + y) * dsx + dsx := by ring
      have h3 : dsy * dsx = dsx * dsy := by ring
      linarith
    have h4 : ((dpy + y) * dsx + dpx + x) * isb + b + 1 ≤
        ((dpy + y) * dsx + dpx + x + 1) * isb := by
      have h5 : ((dpy + y) * dsx + dpx + x + 1) * isb =
          ((dpy + y) * dsx + dpx + x) * isb + isb := by ring
      linarith
    have h6 : ((dpy + y) * dsx + dpx + x + 1) * isb ≤ (dsx * dsy) * isb :=
      Nat.mul_le_mul_right _ hA
    have h7 : (dsx * dsy) * isb = dsx * dsy * isb := by ring
    have : ((dpy + y) * dsx + dpx + x) * isb + b + 1 ≤ dsx * dsy * isb := by linarith
    exact this

/-- Claim C2: under the same preconditions, every destination byte whose pixel coordinate
`(px, py)` lies outside the copied rectangle
`[dst_pos.x, dst_pos.x + src_size.x) x [dst_pos.y, dst_pos.y + src_size.y)` is left
unchanged by `copy_2d_region_from_packed_to_atlased`. -/
theorem copy_2d_leaves_outside_bytes_unchanged
    (dst src : List Nat) (dsx dsy sx sy dpx dpy isb : Nat)
    (hx : dpx + sx ≤ dsx) (hy : dpy + sy ≤ dsy)
    (hsrc : src.length = sx * sy * isb) (hdst : dst.length = dsx * dsy * isb)
    (px py b : Nat) (hpx : px < dsx) (hpy : py < dsy) (hb : b < isb)
    (hout : px < dpx ∨ dpx + sx ≤ px ∨ py < dpy ∨ dpy + sy ≤ py) :
    (copy_2d_region_from_packed_to_atlased dst ⟨(dsx : Int), (dsy : Int)⟩ src
          ⟨(sx : Int), (sy : Int)⟩ ⟨(dpx : Int), (dpy : Int)⟩ isb).getD
        ((py * dsx + px) * isb + b) 0 =
      dst.getD ((py * dsx + px) * isb + b) 0 := by
  rw [copy_2d_cast_eq]
  apply getD_copyRows_out
  intro y hyn
  rcases Nat.lt_trichotomy py (dpy + y) with hc | hc | hc
  · left
    have e1 : py * dsx + px + 1 ≤ (dpy + y) * dsx := by
      have h1 : (py + 1) * dsx ≤ (dpy + y) * dsx := Nat.mul_le_mul_right _ (by omega)
      have h2 : (py + 1) * dsx = py * dsx + dsx := by ring
      linarith
    have e2 : (py * dsx + px + 1) * isb ≤ ((dpy + y) * dsx) * isb :=
      Nat.mul_le_mul_right _ e1
    have e3 : ((dpy + y) * dsx) * isb ≤ (dpx + dpy * dsx) * isb + y * (dsx * isb) := by
      have h1 : ((dpy + y) * dsx) * isb + dpx * isb =
          (dpx + dpy * dsx) * isb + y * (dsx * isb) := by ring
      have h2 : 0 ≤ dpx * isb := Nat.zero_le _
      linarith
    have e4 : (py * dsx + px) * isb + b + 1 ≤ (py * dsx + px + 1) * isb := by
      have h1 : (py * dsx + px + 1) * isb = (py * dsx + px) * isb + isb := by ring
      linarith
    have : (py * dsx + px) * isb + b + 1 ≤ (dpx + dpy * dsx) * isb + y * (dsx * isb) := by
      linarith
    exact this
  · have hpxout : px < dpx ∨ dpx + sx ≤ px := by omega
    rcases hpxout with hplt | hpge
    · left
      have e1 : py * dsx + px + 1 ≤ (dpy + y) * dsx + dpx := by
        have h1 : py * dsx = (dpy + y) * dsx := by rw [hc]
        linarith
      have e2 : (py * dsx + px + 1) * isb ≤ ((dpy + y) * dsx + dpx) * isb :=
        Nat.mul_le_mul_right _ e1
      have e3 : ((dpy + y) * dsx + dpx) * isb =
          (dpx + dpy * dsx) * isb + y * (dsx * isb) := by ring
      have e4 : (py * dsx + px) * isb + b + 1 ≤ (py * dsx + px + 1) * isb := by
        have h1 : (py * dsx + px + 1) * isb = (py * dsx + px) * isb + isb := by ring
        linarith
      have : (py * dsx + px) * isb + b + 1 ≤ (dpx + dpy * dsx) * isb + y * (dsx * isb) := by
        linarith
      exact this
    · right
      have e1 : (dpy + y) * dsx + dpx + sx ≤ py * dsx + px := by
        have h1 : py * dsx = (dpy + y) * dsx := by rw [hc]
        linarith
      have e2 : ((dpy + y) * dsx + dpx + sx) * isb ≤ (py * dsx + px) * isb :=
        Nat.mul_le_mul_right _ e1
      have e3 : ((dpy + y) * dsx + dpx + sx) * isb =
          (dpx + dpy * dsx) * isb + y * (dsx * isb) + sx * isb := by ring
      linarith
  · right
    have e1 : (dpy + y) * dsx + dsx ≤ py * dsx := by
      have h1 : (dpy + y + 1) * dsx ≤ py * dsx := Nat.mul_le_mul_right _ (by omega)
      have h2 : (dpy + y + 1) * dsx = (dpy + y) * dsx + dsx := by ring
      linarith
    have e2 : (dpy + y) * dsx + dpx + sx ≤ py * dsx + px := by linarith
    have e3 : ((dpy + y) * dsx + dpx + sx) * isb ≤ (py * dsx + px) * isb :=
      Nat.mul_le_mul_right _ e2
    have e4 : ((dpy + y) * dsx + dpx + sx) * isb =
        (dpx + dpy * dsx) * isb + y * (dsx * isb) + sx * isb := by ring
    linarith

/-- The conjunction of the `ZN_ASSERT` debug assertions at the top of
`copy_2d_region_from_packed_to_atlased` (the buffer-overlap assertion is structural
in this embedding, where `src` and `dst` are distinct values). -/
def copy_2d_region_asserts (dst_len : Nat) (dst_size : Vector2i) (src_len : Nat)
    (src_size dst_pos : Vector2i) (item_size_in_bytes : Nat) : Prop :=
  (0 ≤ src_size.x ∧ 0 ≤ src_size.y) ∧
  (0 ≤ dst_size.x ∧ 0 ≤ dst_size.y) ∧
  (0 ≤ dst_pos.x ∧ 0 ≤ dst_pos.y ∧ dst_pos.x + src_size.x ≤ dst_size.x ∧
    dst_pos.y + src_size.y ≤ dst_size.y) ∧
  ((src_len : Int) = src_size.x * src_size.y * item_size_in_bytes) ∧
  ((dst_len : Int) = dst_size.x * dst_size.y * item_size_in_bytes)

/-- Claim C4: under the stated preconditions all debug assertions of
`copy_2d_region_from_packed_to_atlased` hold, and every memory access of the copy
loop is in bounds: row `y` of the loop reads `src[y * src_row_size + j]` and writes
`dst[dst_begin + y * dst_row_size + j]` for `j < src_row_size`, and all those
indices are below the respective buffer lengths. -/
theorem copy_2d_accesses_in_bounds
    (dst src : List Nat) (dsx dsy sx sy dpx dpy isb : Nat)
    (hx : dpx + sx ≤ dsx) (hy : dpy + sy ≤ dsy)
    (hsrc : src.length = sx * sy * isb) (hdst : dst.length = dsx * dsy * isb) :
    copy_2d_region_asserts dst.length ⟨(dsx : Int), (dsy : Int)⟩ src.length
        ⟨(sx : Int), (sy : Int)⟩ ⟨(dpx : Int), (dpy : Int)⟩ isb ∧
    ∀ y j, y < sy → j < sx * isb →
      (dpx + dpy * dsx) * isb + y * (dsx * isb) + j < dst.length ∧
      y * (sx * isb) + j < src.length := by
  constructor
  · refine ⟨⟨Int.natCast_nonneg _, Int.natCast_nonneg _⟩,
      ⟨Int.natCast_nonneg _, Int.natCast_nonneg _⟩,
      ⟨Int.natCast_nonneg _, Int.natCast_nonneg _, ?_, ?_⟩, ?_, ?_⟩
    · show (dpx : Int) + (sx : Int) ≤ (dsx : Int)
      exact_mod_cast hx
    · show (dpy : Int) + (sy : Int) ≤ (dsy : Int)
      exact_mod_cast hy
    · show (src.length : Int) = (sx : Int) * (sy : Int) * (isb : Int)
      rw [hsrc]
      push_cast
      ring
    · show (dst.length : Int) = (dsx : Int) * (dsy : Int) * (isb : Int)
      rw [hdst]
      push_cast
      ring
  · intro y j hyn hj
    constructor
    · rw [hdst]
      have h1 : (dpx + dpy * dsx) * isb + y * (dsx * isb) + j + 1 ≤
          (dpx + dpy * dsx) * isb + y * (dsx * isb) + sx * isb := by linarith
      have h2 : (dpx + dpy * dsx) * isb + y * (dsx * isb) + sx * isb =
          ((dpy + y) * dsx + dpx + sx) * isb := by ring
      have h3 : (dpy + y) * dsx + dpx + sx ≤ (dpy + y + 1) * dsx := by
        have h0 : (dpy + y + 1) * dsx = (dpy + y) * dsx + dsx := by ring
        linarith
      have h4 : ((dpy + y) * dsx + dpx + sx) * isb ≤ ((dpy + y + 1) * dsx) * isb :=
        Nat.mul_le_mul_right _ h3
      have h5 : (dpy + y + 1) * dsx ≤ dsy * dsx := Nat.mul_le_mul_right _ (by omega)
      have h6 : ((dpy + y + 1) * dsx) * isb ≤ (dsy * dsx) * isb :=
        Nat.mul_le_mul_right _ h5
      have h7 : (dsy * dsx) * isb = dsx * dsy * isb := by ring
      have : (dpx + dpy * dsx) * isb + y * (dsx * isb) + j + 1 ≤ dsx * dsy * isb := by
        linarith
      exact this
    · rw [hsrc]
      have h1 : y * (sx * isb) + j + 1 ≤ (y + 1) * (sx * isb) := by
        have h0 : (y + 1) * (sx * isb) = y * (sx * isb) + sx * isb := by ring
        linarith
      have h2 : (y + 1) * (sx * isb) ≤ sy * (sx * isb) := Nat.mul_le_mul_right _ (by omega)
      have h3 : sy * (sx * isb) = sx * sy * isb := by ring
      have : y * (sx * isb) + j + 1 ≤ sx * sy * isb := by linarith
      exact this

/-- Concrete instance for claim C1: a 1x1 source block holding byte 7, copied into a
2x2 destination at offset (1,1), lands at destination byte index 3. -/
theorem copy_2d_copies_every_source_byte_witness :
    (copy_2d_region_from_packed_to_atlased [0, 0, 0, 0] ⟨(2 : Int), (2 : Int)⟩ [7]
          ⟨(1 : Int), (1 : Int)⟩ ⟨(1 : Int), (1 : Int)⟩ 1).getD 3 0 =
      [7].getD 0 0 :=
  copy_2d_copies_every_source_byte [0, 0, 0, 0] [7] 2 2 1 1 1 1 1 (by decide) (by decide)
    (by decide) (by decide) 0 0 0 (by decide) (by decide) (by decide)

/-- Concrete instance for claim C2: in the same copy, destination byte 0 (pixel
(0,0), outside the copied rectangle) is unchanged. -/
theorem copy_2d_leaves_outside_bytes_unchanged_witness :
    (copy_2d_region_from_packed_to_atlased [0, 0, 0, 0] ⟨(2 : Int), (2 : Int)⟩ [7]
          ⟨(1 : Int), (1 : Int)⟩ ⟨(1 : Int), (1 : Int)⟩ 1).getD 0 0 =
      [0, 0, 0, 0].getD 0 0 :=
  copy_2d_leaves_outside_bytes_unchanged [0, 0, 0, 0] [7] 2 2 1 1 1 1 1 (by decide)
    (by decide) (by decide) (by decide) 0 0 0 (by decide) (by decide) (by decide)
    (Or.inl (by decide))

/-- Concrete instance for claim C4: the assertions and bounds at the same inputs. -/
theorem copy_2d_accesses_in_bounds_witness :
    copy_2d_region_asserts 4 ⟨(2 : Int), (2 : Int)⟩ 1 ⟨(1 : Int), (1 : Int)⟩
        ⟨(1 : Int), (1 : Int)⟩ 1 ∧
    ∀ y j, y < 1 → j < 1 * 1 →
      (1 + 1 * 2) * 1 + y * (2 * 1) + j < 4 ∧ y * (1 * 1) + j < 1 :=
  copy_2d_accesses_in_bounds [0, 0, 0, 0] [7] 2 2 1 1 1 1 1 (by decide) (by decide)
    rfl rfl

/-- `get_square_grid_size_from_item_count`: given a number of items, the side a 2-D
square grid should have in order to contain them.  The source computes
`int(Math::ceil(Math::sqrt(double(item_count))))`; every 32-bit `unsigned int`
converts to `double` exactly and IEEE-754 square root is correctly rounded (and
never rounds `sqrt(k*k - r)` up to `k` in this range), so the computation equals the
exact ceiling square root, embedded here over `Nat`. -/
def get_square_grid_size_from_item_count (item_count : Nat) : Nat :=
  if Nat.sqrt item_count * Nat.sqrt item_count = item_count then Nat.sqrt item_count
  else Nat.sqrt item_count + 1

theorem sqrt_val (n a : Nat) (h1 : a * a ≤ n) (h2 : n < (a + 1) * (a + 1)) :
    Nat.sqrt n = a := (Nat.eq_sqrt.mpr ⟨h1, h2⟩).symm

theorem grid_size_values :
    get_square_grid_size_from_item_count 0 = 0 ∧
    get_square_grid_size_from_item_count 1 = 1 ∧
    get_square_grid_size_from_item_count 2 = 2 ∧
    get_square_grid_size_from_item_count 3 = 2 ∧
    get_square_grid_size_from_item_count 4 = 2 ∧
    get_square_grid_size_from_item_count 5 = 3 := by
  have s0 : Nat.sqrt 0 = 0 := sqrt_val 0 0 (by norm_num) (by norm_num)
  have s1 : Nat.sqrt 1 = 1 := sqrt_val 1 1 (by norm_num) (by norm_num)
  have s2 : Nat.sqrt 2 = 1 := sqrt_val 2 1 (by norm_num) (by norm_num)
  have s3 : Nat.sqrt 3 = 1 := sqrt_val 3 1 (by norm_num) (by norm_num)
  have s4 : Nat.sqrt 4 = 2 := sqrt_val 4 2 (by norm_num) (by norm_num)
  have s5 : Nat.sqrt 5 = 2 := sqrt_val 5 2 (by norm_num) (by norm_num)
  refine ⟨?_, ?_, ?_, ?_, ?_, ?_⟩ <;>
    simp [get_square_grid_size_from_item_count, s0, s1, s2, s3, s4, s5]

/-- Claim C3: `get_square_grid_size_from_item_count item_count` is the smallest `n`
with `n * n ≥ item_count`; in particular it maps 0, 1, 2, 3, 4, 5 to
0, 1, 2, 2, 2, 3. -/
theorem get_square_grid_size_is_least_square_side (item_count : Nat) :
    (item_count ≤ get_square_grid_size_from_item_count item_count *
        get_square_grid_size_from_item_count item_count ∧
      ∀ m, item_count ≤ m * m → get_square_grid_size_from_item_count item_count ≤ m) ∧
    get_square_grid_size_from_item_count 0 = 0 ∧
    get_square_grid_size_from_item_count 1 = 1 ∧
    get_square_grid_size_from_item_count 2 = 2 ∧
    get_square_grid_size_from_item_count 3 = 2 ∧
    get_square_grid_size_from_item_count 4 = 2 ∧
    get_square_grid_size_from_item_count 5 = 3 := by
  refine ⟨⟨?_, ?_⟩, grid_size_values⟩
  · unfold get_square_grid_size_from_item_count
    split
    · next h => exact h.ge
    · next h =>
      have h1 := Nat.lt_succ_sqrt item_count
      exact le_of_lt (by simpa [Nat.succ_eq_add_one] using h1)
  · intro m hm
    unfold get_square_grid_size_from_item_count
    split
    · next h =>
      calc Nat.sqrt item_count ≤ Nat.sqrt (m * m) := Nat.sqrt_le_sqrt hm
      _ = m := Nat.sqrt_eq m
    · next h =>
      by_contra hcon
      push_neg at hcon
      have h2 : m * m ≤ Nat.sqrt item_count * Nat.sqrt item_count :=
        Nat.mul_le_mul (by omega) (by omega)
      exact h (le_antisymm (Nat.sqrt_le item_count) (le_trans hm h2))

/-- Concrete instance for claim C3 at `item_count = 5`. -/
theorem get_square_grid_size_is_least_square_side_witness :
    (5 ≤ get_square_grid_size_from_item_count 5 * get_square_grid_size_from_item_count 5 ∧
      ∀ m, 5 ≤ m * m → get_square_grid_size_from_item_count 5 ≤ m) ∧
    get_square_grid_size_from_item_count 0 = 0 ∧
    get_square_grid_size_from_item_count 1 = 1 ∧
    get_square_grid_size_from_item_count 2 = 2 ∧
    get_square_grid_size_from_item_count 3 = 2 ∧
    get_square_grid_size_from_item_count 4 = 2 ∧
    get_square_grid_size_from_item_count 5 = 3 :=
  get_square_grid_size_is_least_square_side 5

/-- `DetailTextureData::Tile`: voxel-space cell coordinate plus one of six cardinal
projection directions (`uint8_t` fields, embedded as `Nat`). -/
structure Tile where
  x : Nat
  y : Nat
  z : Nat
  axis : Nat
deriving DecidableEq, Repr

/-- `DetailTextureData`: the flat buffer of encoded normals, the tile metadata, and
the optional sparse tile-index remap (empty means indices are sequential). -/
structure DetailTextureData where
  normals : List Nat
  tiles : List Tile
  tile_indices : List Nat
deriving DecidableEq, Repr

/-- `DetailTextureData::clear`: translated from the source, which calls
`normals.clear()` and `tiles.clear()` (and touches nothing else). -/
def DetailTextureData.clear (d : DetailTextureData) : DetailTextureData :=
  { d with normals := [], tiles := [] }

/-- Claim C10: `clear` leaves `normals` and `tiles` empty but `tile_indices`
unchanged — a previously populated sparse index remap survives `clear()`. -/
theorem clear_keeps_tile_indices (d : DetailTextureData) :
    d.clear.normals = [] ∧ d.clear.tiles = [] ∧ d.clear.tile_indices = d.tile_indices :=
  ⟨rfl, rfl, rfl⟩

/-- Number of bytes per encoded pixel: 3 for raw XYZ, 2 under octahedral encoding. -/
def bytes_per_pixel (octahedral_encoding : Bool) : Nat :=
  if octahedral_encoding then 2 else 3

/-- One encoded normal: two quantized bytes under octahedral encoding, three raw
quantized bytes otherwise. -/
def encode_normal (octahedral_encoding : Bool) (n : Nat × Nat × Nat) : List Nat :=
  if octahedral_encoding then [n.1, n.2.1] else [n.1, n.2.1, n.2.2]

/-- One cell as consumed by the sampler: its tile metadata, whether its voxel extent
contains edited voxels, its logical tile index, and the quantized normal emitted for
each of its pixels. -/
structure CellSample where
  tile : Tile
  edited : Bool
  tile_index : Nat
  normal_at : Nat → Nat × Nat × Nat

/-- The block of encoded pixels of one tile: `tile_resolution^2` encoded normals. -/
def tile_pixels (octahedral_encoding : Bool) (tile_resolution : Nat)
    (c : CellSample) : List Nat :=
  ((List.range (tile_resolution * tile_resolution)).map
      (fun i => encode_normal octahedral_encoding (c.normal_at i))).flatten

/-- Modelled from the spec: the body of `compute_detail_texture_data` is not among
the available sources (the header only declares it).  Per the spec it appends, for
every cell yielded by the iterator — restricted to cells containing edited voxels
when `edited_tiles_only` is set — one `Tile` entry, one `tile_resolution^2` block of
encoded pixels to `normals`, and, in the `edited_tiles_only` mode, the cell's
logical tile address to `tile_indices` (left empty otherwise, meaning sequential
indices). -/
def compute_detail_texture_data (cells : List CellSample) (tile_resolution : Nat)
    (octahedral_encoding : Bool) (edited_tiles_only : Bool) : DetailTextureData :=
  let retained := if edited_tiles_only then cells.filter (fun c => c.edited) else cells
  { normals := (retained.map (tile_pixels octahedral_encoding tile_resolution)).flatten
    tiles := retained.map (fun c => c.tile)
    tile_indices :=
      if edited_tiles_only then retained.map (fun c => c.tile_index) else [] }

theorem length_encode_normal (octahedral_encoding : Bool) (n : Nat × Nat × Nat) :
    (encode_normal octahedral_encoding n).length = bytes_per_pixel octahedral_encoding := by
  cases octahedral_encoding <;> simp [encode_normal, bytes_per_pixel]

theorem length_flatten_map_const {α : Type} (l : List α) (f : α → List Nat) (k : Nat)
    (h : ∀ a, (f a).length = k) : ((l.map f).flatten).length = l.length * k := by
  induction l with
  | nil => simp
  | cons a t ih => simp [h, ih, Nat.succ_mul, Nat.add_comm]

theorem length_tile_pixels (octahedral_encoding : Bool) (tile_resolution : Nat)
    (c : CellSample) :
    (tile_pixels octahedral_encoding tile_resolution c).length =
      tile_resolution * tile_resolution * bytes_per_pixel octahedral_encoding := by
  unfold tile_pixels
  rw [length_flatten_map_const _ _ (bytes_per_pixel octahedral_encoding)
    (fun i => length_encode_normal octahedral_encoding (c.normal_at i))]
  simp

/-- Claim C6: every `DetailTextureData` produced by `compute_detail_texture_data`
satisfies `normals.size == tiles.size * tile_resolution^2 * bytes_per_pixel`, with
`bytes_per_pixel` 3 for raw encoding and 2 for octahedral encoding; and if
`tile_indices` is non-empty then it has exactly one entry per tile. -/
theorem compute_detail_texture_data_sizes (cells : List CellSample)
    (tile_resolution : Nat) (octahedral_encoding edited_tiles_only : Bool) :
    (compute_detail_texture_data cells tile_resolution octahedral_encoding
          edited_tiles_only).normals.length =
      (compute_detail_texture_data cells tile_resolution octahedral_encoding
          edited_tiles_only).tiles.length *
        (tile_resolution * tile_resolution) * bytes_per_pixel octahedral_encoding ∧
    ((compute_detail_texture_data cells tile_resolution octahedral_encoding
          edited_tiles_only).tile_indices ≠ [] →
      (compute_detail_texture_data cells tile_resolution octahedral_encoding
          edited_tiles_only).tile_indices.length =
        (compute_detail_texture_data cells tile_resolution octahedral_encoding
          edited_tiles_only).tiles.length) := by
  refine ⟨?_, ?_⟩
  · simp only [compute_detail_texture_data, List.length_map]
    rw [length_flatten_map_const _ _
      (tile_resolution * tile_resolution * bytes_per_pixel octahedral_encoding)
      (fun c => length_tile_pixels octahedral_encoding tile_resolution c)]
    ring
  · intro hne
    cases edited_tiles_only with
    | false => simp [compute_detail_texture_data] at hne
    | true => simp [compute_detail_texture_data]

/-- Concrete instance for claim C6: one edited cell, octahedral encoding, tile
resolution 2, in `edited_tiles_only` mode. -/
theorem compute_detail_texture_data_sizes_witness :
    (compute_detail_texture_data
          [⟨⟨0, 0, 0, 0⟩, true, 9, fun _ => (1, 2, 3)⟩] 2 true true).normals.length =
      (compute_detail_texture_data
          [⟨⟨0, 0, 0, 0⟩, true, 9, fun _ => (1, 2, 3)⟩] 2 true true).tiles.length *
        (2 * 2) * bytes_per_pixel true ∧
    ((compute_detail_texture_data
          [⟨⟨0, 0, 0, 0⟩, true, 9, fun _ => (1, 2, 3)⟩] 2 true true).tile_indices ≠ [] →
      (compute_detail_texture_data
          [⟨⟨0, 0, 0, 0⟩, true, 9, fun _ => (1, 2, 3)⟩] 2 true true).tile_indices.length =
        (compute_detail_texture_data
          [⟨⟨0, 0, 0, 0⟩, true, 9, fun _ => (1, 2, 3)⟩] 2 true true).tiles.length) :=
  compute_detail_texture_data_sizes [⟨⟨0, 0, 0, 0⟩, true, 9, fun _ => (1, 2, 3)⟩] 2 true true

/-- `DetailRenderingSettings`: static configuration of the detail-normalmap system;
`uint8_t` fields embedded as `Nat`, defaults as in the source. -/
structure DetailRenderingSettings where
  enabled : Bool := false
  begin_lod_index : Nat := 2
  tile_resolution_min : Nat := 4
  tile_resolution_max : Nat := 8
  max_deviation_degrees : Nat := 60
  octahedral_encoding_enabled : Bool := false
deriving DecidableEq, Repr

/-- Modelled from the spec: the body of `get_detail_texture_tile_resolution_for_lod`
is not among the available sources (the header only declares it).  Per the spec and
the settings comments, the resolution is `tile_resolution_min` at `begin_lod_index`,
doubles at each following LOD index, and is clamped to
`[tile_resolution_min, tile_resolution_max]`; LOD indices below `begin_lod_index`
clamp to the minimum (callers gate on `enabled` and the LOD range). -/
def get_detail_texture_tile_resolution_for_lod (settings : DetailRenderingSettings)
    (lod_index : Nat) : Nat :=
  min
    (max (settings.tile_resolution_min * 2 ^ (lod_index - settings.begin_lod_index))
      settings.tile_resolution_min)
    settings.tile_resolution_max

/-- Claim C5: for valid settings (`tile_resolution_min ≤ tile_resolution_max`), the
tile resolution equals `tile_resolution_min` at `begin_lod_index`, doubles per LOD
step away from `begin_lod_index` while the doubled value stays below the cap, always
lies in `[tile_resolution_min, tile_resolution_max]`, and is monotonic in the LOD
distance from `begin_lod_index`. -/
theorem tile_resolution_for_lod_spec (settings : DetailRenderingSettings)
    (hvalid : settings.tile_resolution_min ≤ settings.tile_resolution_max) :
    get_detail_texture_tile_resolution_for_lod settings settings.begin_lod_index =
        settings.tile_resolution_min ∧
    (∀ lod, settings.begin_lod_index ≤ lod →
      settings.tile_resolution_min * 2 ^ (lod + 1 - settings.begin_lod_index) ≤
        settings.tile_resolution_max →
      get_detail_texture_tile_resolution_for_lod settings (lod + 1) =
        2 * get_detail_texture_tile_resolution_for_lod settings lod) ∧
    (∀ lod, settings.tile_resolution_min ≤
        get_detail_texture_tile_resolution_for_lod settings lod ∧
      get_detail_texture_tile_resolution_for_lod settings lod ≤
        settings.tile_resolution_max) ∧
    (∀ lod lod2, lod ≤ lod2 →
      get_detail_texture_tile_resolution_for_lod settings lod ≤
        get_detail_texture_tile_resolution_for_lod settings lod2) := by
  refine ⟨?_, ?_, ?_, ?_⟩
  · simp [get_detail_texture_tile_resolution_for_lod, Nat.sub_self,
      Nat.min_eq_left hvalid]
  · intro lod hlod hsmall
    have hd : lod + 1 - settings.begin_lod_index =
        (lod - settings.begin_lod_index) + 1 := by omega
    unfold get_detail_texture_tile_resolution_for_lod
    rw [hd] at hsmall ⊢
    have h1 : settings.tile_resolution_min ≤
        settings.tile_resolution_min * 2 ^ ((lod - settings.begin_lod_index) + 1) :=
      Nat.le_mul_of_pos_right _ (Nat.pos_pow_of_pos _ (by norm_num))
    have h2 : settings.tile_resolution_min ≤
        settings.tile_resolution_min * 2 ^ (lod - settings.begin_lod_index) :=
      Nat.le_mul_of_pos_right _ (Nat.pos_pow_of_pos _ (by norm_num))
    have h3 : settings.tile_resolution_min * 2 ^ (lod - settings.begin_lod_index) ≤
        settings.tile_resolution_max := by
      have : settings.tile_resolution_min * 2 ^ (lod - settings.begin_lod_index) ≤
          settings.tile_resolution_min * 2 ^ ((lod - settings.begin_lod_index) + 1) :=
        Nat.mul_le_mul_left _ (Nat.pow_le_pow_right (by norm_num) (by omega))
      omega
    rw [Nat.max_eq_left h1, Nat.max_eq_left h2, Nat.min_eq_left hsmall,
      Nat.min_eq_left h3]
    ring
  · intro lod
    constructor
    · exact le_min (le_max_right _ _) hvalid
    · exact min_le_right _ _
  · intro lod lod2 hle
    unfold get_detail_texture_tile_resolution_for_lod
    have hpow : 2 ^ (lod - settings.begin_lod_index) ≤
        2 ^ (lod2 - settings.begin_lod_index) :=
      Nat.pow_le_pow_right (by norm_num) (by omega)
    exact min_le_min (max_le_max (Nat.mul_le_mul_left _ hpow) le_rfl) le_rfl

/-- Concrete instance for claim C5 at the default settings. -/
theorem tile_resolution_for_lod_spec_witness :
    get_detail_texture_tile_resolution_for_lod ⟨false, 2, 4, 8, 60, false⟩ 2 = 4 ∧
    (∀ lod, 2 ≤ lod → 4 * 2 ^ (lod + 1 - 2) ≤ 8 →
      get_detail_texture_tile_resolution_for_lod ⟨false, 2, 4, 8, 60, false⟩ (lod + 1) =
        2 * get_detail_texture_tile_resolution_for_lod ⟨false, 2, 4, 8, 60, false⟩ lod) ∧
    (∀ lod, 4 ≤ get_detail_texture_tile_resolution_for_lod ⟨false, 2, 4, 8, 60, false⟩ lod ∧
      get_detail_texture_tile_resolution_for_lod ⟨false, 2, 4, 8, 60, false⟩ lod ≤ 8) ∧
    (∀ lod lod2, lod ≤ lod2 →
      get_detail_texture_tile_resolution_for_lod ⟨false, 2, 4, 8, 60, false⟩ lod ≤
        get_detail_texture_tile_resolution_for_lod ⟨false, 2, 4, 8, 60, false⟩ lod2) :=
  tile_resolution_for_lod_spec ⟨false, 2, 4, 8, 60, false⟩ (by decide)

/-- `CurrentCellInfo`: the per-cell record a cell iterator yields — up to
`MAX_TRIANGLES` triangle begin indices, the triangle count, and the cell's
voxel-space position. -/
structure CurrentCellInfo where
  triangle_begin_indices : List Nat
  triangle_count : Nat
  position : Int × Int × Int
deriving DecidableEq, Repr

/-- `CurrentCellInfo::MAX_TRIANGLES`. -/
def CurrentCellInfo.MAX_TRIANGLES : Nat := 5

/-- An `ICellIterator` implementation: an internal cursor state type `σ`, the state
a fresh iterator starts in, `next` (the yielded cell and successor state, or `none`
when exhausted), `rewind`, and `get_count`. -/
structure CellIterator (σ : Type) where
  init : σ
  next : σ → Option (CurrentCellInfo × σ)
  rewind : σ → σ
  get_count : σ → Nat

/-- The sequence of cells yielded by at most `fuel` successful `next` calls from
state `s`. -/
def CellIterator.run {σ : Type} (it : CellIterator σ) : Nat → σ → List CurrentCellInfo
  | 0, _ => []
  | fuel + 1, s =>
    match it.next s with
    | none => []
    | some (info, s2) => info :: it.run fuel s2

/-- How many of at most `fuel` successive `next` calls from state `s` succeed before
the first one returns nothing. -/
def CellIterator.countNext {σ : Type} (it : CellIterator σ) : Nat → σ → Nat
  | 0, _ => 0
  | fuel + 1, s =>
    match it.next s with
    | none => 0
    | some (_, s2) => it.countNext fuel s2 + 1

/-- Modelled from the spec: the `ICellIterator` contract (the header declares only
the pure-virtual interface).  With `fuel` bounding the traversal: the iterator is
exhausted within `fuel` steps (one extra step yields nothing more), `get_count` on a
fresh iterator is exactly the number of cells the full traversal yields, and
`rewind` resets any state to the initial one. -/
def CellIterator.SatisfiesContract {σ : Type} (it : CellIterator σ) (fuel : Nat) : Prop :=
  it.run (fuel + 1) it.init = it.run fuel it.init ∧
  it.get_count it.init = (it.run fuel it.init).length ∧
  ∀ s, it.rewind s = it.init

theorem countNext_eq_length_run {σ : Type} (it : CellIterator σ) (fuel : Nat) (s : σ) :
    it.countNext fuel s = (it.run fuel s).length := by
  induction fuel generalizing s with
  | zero => rfl
  | succ m ih =>
    simp only [CellIterator.countNext, CellIterator.run]
    cases it.next s with
    | none => rfl
    | some p => simp [ih]

theorem run_next_none {σ : Type} (it : CellIterator σ) (s : σ) (h : it.next s = none) :
    ∀ k, it.run k s = [] := by
  intro k
  cases k with
  | zero => rfl
  | succ m => simp [CellIterator.run, h]

theorem run_stable {σ : Type} (it : CellIterator σ) (fuel : Nat) (s : σ)
    (h : it.run (fuel + 1) s = it.run fuel s) :
    ∀ k, fuel ≤ k → it.run k s = it.run fuel s := by
  induction fuel generalizing s with
  | zero =>
    intro k hk
    cases hn : it.next s with
    | none => rw [run_next_none it s hn, run_next_none it s hn]
    | some p =>
      exfalso
      have h1 : it.run 1 s = [p.1] := by simp [CellIterator.run, hn]
      rw [h] at h1
      exact List.cons_ne_nil _ _ h1.symm
  | succ m ih =>
    intro k hk
    cases hn : it.next s with
    | none => rw [run_next_none it s hn, run_next_none it s hn]
    | some p =>
      obtain ⟨i, s2⟩ := p
      have e1 : it.run (m + 1 + 1) s = i :: it.run (m + 1) s2 := by
        simp [CellIterator.run, hn]
      have e2 : it.run (m + 1) s = i :: it.run m s2 := by
        simp [CellIterator.run, hn]
      have h2 : it.run (m + 1) s2 = it.run m s2 := by
        rw [e1, e2] at h
        exact List.cons_injective.eq_iff.mp h
      obtain ⟨k2, rfl⟩ : ∃ k2, k = k2 + 1 := ⟨k - 1, by omega⟩
      have e3 : it.run (k2 + 1) s = i :: it.run k2 s2 := by
        simp [CellIterator.run, hn]
      rw [e3, e2, ih s2 h2 k2 (by omega)]

/-- Claim C8: for every `ICellIterator` implementation satisfying the contract,
`get_count` on a fresh iterator equals the exact number of `next` calls that succeed
before `next` first fails (counted under any sufficient call budget), and after
`rewind` from any state, iterating again yields the identical `CurrentCellInfo`
sequence as the first full iteration. -/
theorem cell_iterator_count_exact_and_rewind_reproduces {σ : Type}
    (it : CellIterator σ) (fuel : Nat) (h : it.SatisfiesContract fuel) :
    (∀ k, fuel ≤ k → it.get_count it.init = it.countNext k it.init) ∧
    (∀ s, it.run fuel (it.rewind s) = it.run fuel it.init) := by
  obtain ⟨hstab, hcount, hrew⟩ := h
  refine ⟨?_, ?_⟩
  · intro k hk
    rw [countNext_eq_length_run, run_stable it fuel it.init hstab k hk, hcount]
  · intro s
    rw [hrew s]

/-- A concrete cell iterator yielding a single cell, used to instantiate the
`ICellIterator` contract. -/
def demoCellIterator : CellIterator Nat where
  init := 0
  next := fun n => if n = 0 then some (⟨[0], 1, (0, 0, 0)⟩, 1) else none
  rewind := fun _ => 0
  get_count := fun _ => 1

/-- Concrete instance for claim C8: the single-cell iterator satisfies the contract
with fuel 1, so its count is exact and rewinding reproduces the sequence. -/
theorem cell_iterator_contract_witness :
    (∀ k, 1 ≤ k →
      demoCellIterator.get_count demoCellIterator.init =
        demoCellIterator.countNext k demoCellIterator.init) ∧
    (∀ s, demoCellIterator.run 1 (demoCellIterator.rewind s) =
      demoCellIterator.run 1 demoCellIterator.init) :=
  cell_iterator_count_exact_and_rewind_reproduces demoCellIterator 1
    ⟨rfl, rfl, fun _ => rfl⟩

/-- The observable state of a `DetailTextureOutput`: whether the `images` and
`textures` fields have been populated past their default values, and the
`std::atomic_bool valid` flag. -/
structure DetailTextureOutputState where
  images_set : Bool
  textures_set : Bool
  valid : Bool
deriving DecidableEq, Repr

/-- A freshly created `DetailTextureOutput`: default-constructed fields and
`valid = { false }`, as in the source initializer. -/
def DetailTextureOutput_init : DetailTextureOutputState :=
  { images_set := false, textures_set := false, valid := false }

/-- Modelled from the spec: the lifecycle step relation of `DetailTextureOutput`
(the header only declares the struct; the spec fixes the protocol).  The single
producer populates the `images`/`textures` fields while `valid` is still false and
then sets `valid` true exactly once, after populating; consumers only poll the
flag. -/
inductive DTOStep : DetailTextureOutputState → DetailTextureOutputState → Prop
  | populate (s : DetailTextureOutputState) (h : s.valid = false) :
      DTOStep s { s with images_set := true, textures_set := true }
  | publish (s : DetailTextureOutputState) (h : s.valid = false)
      (himg : s.images_set = true) (htex : s.textures_set = true) :
      DTOStep s { s with valid := true }
  | poll (s : DetailTextureOutputState) : DTOStep s s

/-- A trace of the object's step relation: consecutive states related by
`DTOStep`. -/
def DTOTrace : List DetailTextureOutputState → Prop
  | [] => True
  | [_] => True
  | s :: s2 :: rest => DTOStep s s2 ∧ DTOTrace (s2 :: rest)

/-- Number of false-to-true transitions of `valid` along a trace. -/
def countValidRises : List DetailTextureOutputState → Nat
  | s :: s2 :: rest =>
    (if s.valid = false ∧ s2.valid = true then 1 else 0) + countValidRises (s2 :: rest)
  | _ => 0

/-- Number of true-to-false transitions of `valid` along a trace. -/
def countValidFalls : List DetailTextureOutputState → Nat
  | s :: s2 :: rest =>
    (if s.valid = true ∧ s2.valid = false then 1 else 0) + countValidFalls (s2 :: rest)
  | _ => 0

theorem dto_step_valid_mono (s s2 : DetailTextureOutputState) (h : DTOStep s s2)
    (hv : s.valid = true) : s2.valid = true := by
  cases h with
  | populate hf => exact hv
  | publish hf himg htex => rfl
  | poll => exact hv

theorem countValidFalls_zero (l : List DetailTextureOutputState) (htr : DTOTrace l) :
    countValidFalls l = 0 := by
  induction l with
  | nil => rfl
  | cons s t ih =>
    cases t with
    | nil => rfl
    | cons s2 r =>
      obtain ⟨hst, htr2⟩ := htr
      have hno : ¬(s.valid = true ∧ s2.valid = false) := by
        rintro ⟨h1, h2⟩
        rw [dto_step_valid_mono s s2 hst h1] at h2
        simp at h2
      rw [show countValidFalls (s :: s2 :: r) =
          (if s.valid = true ∧ s2.valid = false then 1 else 0) + countValidFalls (s2 :: r)
        from rfl, if_neg hno, Nat.zero_add]
      exact ih htr2

theorem countValidRises_zero_of_valid (s : DetailTextureOutputState)
    (r : List DetailTextureOutputState) (htr : DTOTrace (s :: r))
    (hv : s.valid = true) : countValidRises (s :: r) = 0 := by
  induction r generalizing s with
  | nil => rfl
  | cons s2 r2 ih =>
    obtain ⟨hst, htr2⟩ := htr
    have hs2 : s2.valid = true := dto_step_valid_mono s s2 hst hv
    have hno : ¬(s.valid = false ∧ s2.valid = true) := by
      rintro ⟨h1, _⟩
      rw [hv] at h1
      simp at h1
    rw [show countValidRises (s :: s2 :: r2) =
        (if s.valid = false ∧ s2.valid = true then 1 else 0) + countValidRises (s2 :: r2)
      from rfl, if_neg hno, Nat.zero_add]
    exact ih s2 htr2 hs2

theorem countValidRises_le_one (l : List DetailTextureOutputState)
    (htr : DTOTrace l) : countValidRises l ≤ 1 := by
  induction l with
  | nil => exact Nat.zero_le _
  | cons s t ih =>
    cases t with
    | nil => exact Nat.zero_le _
    | cons s2 r =>
      obtain ⟨hst, htr2⟩ := htr
      by_cases hrise : s.valid = false ∧ s2.valid = true
      · rw [show countValidRises (s :: s2 :: r) =
            (if s.valid = false ∧ s2.valid = true then 1 else 0) + countValidRises (s2 :: r)
          from rfl, if_pos hrise,
          countValidRises_zero_of_valid s2 r htr2 hrise.2]
      · rw [show countValidRises (s :: s2 :: r) =
            (if s.valid = false ∧ s2.valid = true then 1 else 0) + countValidRises (s2 :: r)
          from rfl, if_neg hrise, Nat.zero_add]
        exact ih htr2

/-- Claim C9: for every trace of the `DetailTextureOutput` step relation starting
from a fresh object, `valid` starts false, the step relation never takes `valid`
from true back to false (zero such transitions on any trace, and step-wise
monotonicity), and `valid` goes from false to true at most once. -/
theorem dto_valid_monotone_once (l : List DetailTextureOutputState)
    (htr : DTOTrace (DetailTextureOutput_init :: l)) :
    DetailTextureOutput_init.valid = false ∧
    (∀ s s2, DTOStep s s2 → s.valid = true → s2.valid = true) ∧
    countValidFalls (DetailTextureOutput_init :: l) = 0 ∧
    countValidRises (DetailTextureOutput_init :: l) ≤ 1 := by
  exact ⟨rfl, dto_step_valid_mono, countValidFalls_zero _ htr,
    countValidRises_le_one _ htr⟩

/-- Concrete instance for claim C9: the producer trace populate-then-publish. -/
theorem dto_valid_monotone_once_witness :
    DetailTextureOutput_init.valid = false ∧
    (∀ s s2, DTOStep s s2 → s.valid = true → s2.valid = true) ∧
    countValidFalls
      [DetailTextureOutput_init, ⟨true, true, false⟩, ⟨true, true, true⟩] = 0 ∧
    countValidRises
      [DetailTextureOutput_init, ⟨true, true, false⟩, ⟨true, true, true⟩] ≤ 1 :=
  dto_valid_monotone_once [⟨true, true, false⟩, ⟨true, true, true⟩]
    ⟨DTOStep.populate _ rfl, DTOStep.publish _ rfl rfl rfl, trivial⟩

/-- A unit vector of the plane spanned by the mesh-interpolated and field-derived
normals, parameterised by its angle. -/
noncomputable def unit_normal (θ : ℝ) : ℝ × ℝ := (Real.cos θ, Real.sin θ)

/-- The (unoriented) angle between two unit vectors: arccos of their dot product. -/
noncomputable def normal_angle (u v : ℝ × ℝ) : ℝ := Real.arccos (u.1 * v.1 + u.2 * v.2)

/-- Modelled from the spec: the deviation clamp of `compute_detail_texture_data`
(its body is not among the available sources; the header comment and the spec fix
the behaviour).  In the plane spanned by the two normals, with coordinates chosen so
the mesh-interpolated normal is `unit_normal mesh` and the field-derived normal is
`unit_normal field`, the emitted normal keeps the field-derived direction when the
angle between the two is within `max_deviation_radians`, and is otherwise the
field-derived normal rotated toward the mesh normal until the angle equals the
threshold (cone clamp). -/
noncomputable def clamp_normal_deviation (max_deviation_radians mesh field : ℝ) : ℝ × ℝ :=
  unit_normal
    (mesh + max (-max_deviation_radians) (min (field - mesh) max_deviation_radians))

theorem abs_clamp_eq_min (m δ : ℝ) (h0 : 0 ≤ m) :
    |max (-m) (min δ m)| = min |δ| m := by
  rcases le_total 0 δ with hδ | hδ
  · rw [abs_of_nonneg hδ]
    have h1 : -m ≤ min δ m := le_min (by linarith) (by linarith)
    rw [max_eq_right h1, abs_of_nonneg (le_min hδ h0)]
  · rw [abs_of_nonpos hδ, min_eq_left (by linarith : δ ≤ m)]
    have h2 : max (-m) δ ≤ 0 := max_le (by linarith) hδ
    rw [abs_of_nonpos h2, neg_sup, neg_neg, min_comm]

/-- Claim C7: the emitted normal's angular deviation from the mesh-interpolated
normal is the raw deviation clamped to `max_deviation_radians`: it never exceeds
`max_deviation_radians`, and whenever the raw deviation of the field-derived normal
exceeds the threshold, the emitted deviation equals the threshold exactly. -/
theorem clamped_normal_deviation_spec (max_deviation_radians mesh field : ℝ)
    (h0 : 0 ≤ max_deviation_radians) (hpi : max_deviation_radians ≤ Real.pi)
    (hf : |field - mesh| ≤ Real.pi) :
    normal_angle (clamp_normal_deviation max_deviation_radians mesh field)
        (unit_normal mesh) = min |field - mesh| max_deviation_radians ∧
    normal_angle (clamp_normal_deviation max_deviation_radians mesh field)
        (unit_normal mesh) ≤ max_deviation_radians ∧
    (max_deviation_radians < |field - mesh| →
      normal_angle (clamp_normal_deviation max_deviation_radians mesh field)
        (unit_normal mesh) = max_deviation_radians) := by
  set c := max (-max_deviation_radians)
    (min (field - mesh) max_deviation_radians) with hc
  have hcle : c ≤ max_deviation_radians := max_le (by linarith) (min_le_right _ _)
  have hcge : -max_deviation_radians ≤ c := le_max_left _ _
  have habsc : |c| ≤ max_deviation_radians := abs_le.mpr ⟨hcge, hcle⟩
  have hdot : normal_angle (clamp_normal_deviation max_deviation_radians mesh field)
      (unit_normal mesh) = Real.arccos (Real.cos c) := by
    unfold normal_angle clamp_normal_deviation unit_normal
    rw [← hc]
    congr 1
    rw [← Real.cos_sub]
    ring_nf
  have harc : Real.arccos (Real.cos c) = |c| := by
    rw [← Real.cos_abs, Real.arccos_cos (abs_nonneg c) (le_trans habsc hpi)]
  have habs : |c| = min |field - mesh| max_deviation_radians := by
    rw [hc]
    exact abs_clamp_eq_min max_deviation_radians (field - mesh) h0
  refine ⟨by rw [hdot, harc, habs], by rw [hdot, harc]; exact habsc, ?_⟩
  intro hover
  rw [hdot, harc, habs, min_eq_right (le_of_lt hover)]

/-- Concrete instance for claim C7 with threshold `π` and coincident normals. -/
theorem clamped_normal_deviation_spec_witness :
    normal_angle (clamp_normal_deviation Real.pi 0 0) (unit_normal 0) =
        min |(0 : ℝ) - 0| Real.pi ∧
    normal_angle (clamp_normal_deviation Real.pi 0 0) (unit_normal 0) ≤ Real.pi ∧
    (Real.pi < |(0 : ℝ) - 0| →
      normal_angle (clamp_normal_deviation Real.pi 0 0) (unit_normal 0) = Real.pi) :=
  clamped_normal_deviation_spec Real.pi 0 0 Real.pi_nonneg le_rfl
    (by simp [Real.pi_nonneg])

end VoxelDetail
